import Mathlib

/-!
Shallow embedding of the `ancdec` fixed-point decimal library
(wide-arithmetic kernel, 64-bit tier `AncDec`, 128-bit tier `AncDec128`,
32-bit tier rounding) together with proofs about the embedded code.

Machine integers are modelled as `Nat` with explicit `% 2^w` wherever the
source operation can wrap; Rust `panic!`/`assert!` failure is modelled by
`Option`/`Except` results.  Bitwise-or used by the source purely to pack
disjoint bit ranges is written as `+`, and bitwise shifts as `*`/`/` by
powers of two, which agree on the in-range values the source operates on.
-/

/-- 2^64, the u64 limb radix. -/
def B64 : ℕ := 2 ^ 64

/-- 2^128, the u128 modulus. -/
def M128 : ℕ := 2 ^ 128

/-- `mul_wide` from `src/wide.rs`: exact u128 × u128 → (high, low) 256-bit
product by half-limb decomposition. -/
def mul_wide (a b : ℕ) : ℕ × ℕ :=
  let aLo := a % B64
  let aHi := a / B64
  let bLo := b % B64
  let bHi := b / B64
  let ll := aLo * bLo
  let hl := aHi * bLo
  let lh := aLo * bHi
  let hh := aHi * bHi
  let t := hl + lh
  let mid := t % M128
  let midCarry := t / M128
  let s := ll + (mid * B64) % M128
  let low := s % M128
  let carry := s / M128
  let high := hh + mid / B64 + midCarry * B64 + carry
  (high, low)

/-- `shl_u256` from `src/wide.rs`: shift a 256-bit value `(high, low)` left
by `shift < 128` bits, returning four u64 limbs, most significant first. -/
def shl_u256 (high low shift : ℕ) : ℕ × ℕ × ℕ × ℕ :=
  if shift = 0 then
    (high / B64, high % B64, low / B64, low % B64)
  else
    let highShifted := (high * 2 ^ shift) % M128 + low / 2 ^ (128 - shift)
    let lowShifted := (low * 2 ^ shift) % M128
    (highShifted / B64, highShifted % B64, lowShifted / B64, lowShifted % B64)

/-- `div_u128_by_u64` from `src/wide.rs`. -/
def div_u128_by_u64 (n d : ℕ) : ℕ × ℕ := (n / d, n % d)

/-- `div_wide_by_u64` from `src/wide.rs`: u256 / u64 → u128 quotient by
schoolbook limb division; `none` models the `assert!(q3 == 0 && q2 == 0)`
failing. -/
def div_wide_by_u64 (high low divisor : ℕ) : Option ℕ :=
  let n3 := high / B64
  let n2 := high % B64
  let n1 := low / B64
  let n0 := low % B64
  let p3 := div_u128_by_u64 n3 divisor
  let p2 := div_u128_by_u64 (p3.2 * B64 + n2) divisor
  let p1 := div_u128_by_u64 (p2.2 * B64 + n1) divisor
  let p0 := div_u128_by_u64 (p1.2 * B64 + n0) divisor
  if p3.1 = 0 ∧ p2.1 = 0 then some (p1.1 * B64 + p0.1) else none

/-- `div_3by2` from `src/wide.rs`: divide the 3-limb value `(n2, n1, n0)` by
the normalized 2-limb divisor `(d1, d0)`, returning the quotient limb and the
2-limb remainder.  Quotient-digit estimate, at most two unrolled correction
steps, multiply-subtract with an add-back when the estimate was one high. -/
def div_3by2 (n2 n1 n0 d1 d0 : ℕ) : ℕ × ℕ :=
  let nHi := n2 * B64 + n1
  let qh0 := if d1 ≤ n2 then B64 - 1 else nHi / d1 % B64
  let rh0 := nHi - qh0 * d1
  let qh :=
    if rh0 ≤ B64 - 1 then
      if rh0 * B64 + n0 < qh0 * d0 then
        let qh1 := qh0 - 1
        let rh1 := rh0 + d1
        if rh1 ≤ B64 - 1 then
          if rh1 * B64 + n0 < qh1 * d0 then qh1 - 1 else qh1
        else qh1
      else qh0
    else qh0
  let product := qh * d0
  let productHi := qh * d1 + product / B64
  let s0 := (n0 + M128 - product % B64) % M128
  let b0 := if n0 < product % B64 then 1 else 0
  let s1 := (n1 + M128 - (productHi % B64 + b0)) % M128
  let b1 := if n1 < productHi % B64 + b0 then 1 else 0
  let s2 := (n2 + M128 - (productHi / B64 + b1)) % M128
  if n2 < s2 then
    let a0 := (s0 + d0) % M128
    let c0 := if a0 < s0 then 1 else 0
    let a1 := (s1 + (d1 + c0)) % M128
    (qh - 1, a1 % B64 * B64 + a0 % B64)
  else
    (qh, s1 % B64 * B64 + s0 % B64)

/-- `div_4by2` from `src/wide.rs`: 4-limb by 2-limb division built from two
3-by-2 steps. -/
def div_4by2 (n3 n2 n1 n0 d1 d0 : ℕ) : ℕ × ℕ :=
  let p1 := div_3by2 n3 n2 n1 d1 d0
  let r1Hi := p1.2 / B64 % B64
  let r1Lo := p1.2 % B64
  let p0 := div_3by2 r1Hi r1Lo n0 d1 d0
  (p1.1, p0.1)

/-- `div_wide` from `src/wide.rs` (Knuth Algorithm D): u256 / u128 → u128.
`none` models the `assert!(divisor != 0)` / `assert!(high < divisor)`
aborts (and an assert failing inside `div_wide_by_u64`). -/
def div_wide (high low divisor : ℕ) : Option ℕ :=
  if divisor = 0 then none
  else if high = 0 then some (low / divisor)
  else if divisor ≤ high then none
  else if divisor / B64 = 0 then div_wide_by_u64 high low (divisor % B64)
  else
    let shift := 128 - Nat.size divisor
    let divisorNorm := divisor * 2 ^ shift % M128
    let d1 := divisorNorm / B64
    let d0 := divisorNorm % B64
    let l := shl_u256 high low shift
    let q := div_4by2 l.1 l.2.1 l.2.2.1 l.2.2.2 d1 d0
    some (q.1 * B64 + q.2)

/-- The Newton iteration loop inside `isqrt_u128`; `x & q & 1` is written
as `x % 2 * (q % 2)`. -/
def isqrt128Loop (n x : ℕ) : ℕ :=
  if x ≤ x / 2 + n / x / 2 + x % 2 * (n / x % 2) then x
  else isqrt128Loop n (x / 2 + n / x / 2 + x % 2 * (n / x % 2))
termination_by x
decreasing_by
  rename_i h
  omega

/-- `isqrt_u128` from `src/wide.rs`: floor square root of a u128 via Newton
iteration seeded from the bit length, with a final downward correction.  The
source's `x.checked_mul(x).is_none_or(|sq| sq > n)` is the test
`2^128 ≤ x*x ∨ n < x*x`. -/
def isqrt_u128 (n : ℕ) : ℕ :=
  if n ≤ 1 then n
  else
    let bits := Nat.size n
    let x := isqrt128Loop n (2 ^ ((bits + 1) / 2))
    if M128 ≤ x * x ∨ n < x * x then x - 1 else x

/-- The Newton iteration loop inside `isqrt_u256`: the trial divisor result
is clamped to `u128::MAX` when `n_hi ≥ x`; `none` propagates a `div_wide`
assertion failure. -/
def isqrt256Loop (nHi nLo x : ℕ) : Option ℕ :=
  match (if x ≤ nHi then some (M128 - 1) else div_wide nHi nLo x) with
  | none => none
  | some q =>
    if x ≤ x / 2 + q / 2 + x % 2 * (q % 2) then some x
    else isqrt256Loop nHi nLo (x / 2 + q / 2 + x % 2 * (q % 2))
termination_by x
decreasing_by
  rename_i h
  omega

/-- `isqrt_u256` from `src/wide.rs`: floor square root of a 256-bit value
`(n_hi, n_lo)`, delegating to `isqrt_u128` when the high half is zero. -/
def isqrt_u256 (nHi nLo : ℕ) : Option ℕ :=
  if nHi = 0 then some (isqrt_u128 nLo)
  else
    let totalBits := 128 + Nat.size nHi
    let shift := (totalBits + 1) / 2
    let x0 := if 128 ≤ shift then M128 - 1 else 2 ^ shift
    match isqrt256Loop nHi nLo x0 with
    | none => none
    | some x =>
      let sq := mul_wide x x
      some (if nHi < sq.1 ∨ (sq.1 = nHi ∧ nLo < sq.2) then x - 1 else x)

/-! ## Parse error taxonomy (`src/error.rs`) -/

/-- `ParseError` from `src/error.rs`. -/
inductive ParseError where
  | Empty
  | NoDigits
  | TrailingChars
  | InvalidFloat
  | Overflow
deriving DecidableEq, Repr

instance {ε α : Type} [DecidableEq ε] [DecidableEq α] :
    DecidableEq (Except ε α) := fun a b =>
  match a, b with
  | .error e, .error e' =>
    if h : e = e' then .isTrue (by rw [h]) else .isFalse (by simp [h])
  | .error _, .ok _ => .isFalse (by simp)
  | .ok _, .error _ => .isFalse (by simp)
  | .ok v, .ok v' =>
    if h : v = v' then .isTrue (by rw [h]) else .isFalse (by simp [h])

/-- `pow10` from `src/util.rs`: u64 power-of-ten table for exponents 0-19
(the source panics above 19; every use below stays in range). -/
def pow10 (e : ℕ) : ℕ := 10 ^ e

/-- `pow10_128` from `src/util.rs`: u128 power-of-ten table for exponents
0-38 (the source panics above 38; every use below stays in range). -/
def pow10_128 (e : ℕ) : ℕ := 10 ^ e

/-! ## 64-bit tier `AncDec` (`src/ancdec/`) -/

/-- The 64-bit tier value record from `src/ancdec/mod.rs`: u64 integer and
fractional parts, scale 0-19, sign flag. -/
structure AncDec where
  int : ℕ
  frac : ℕ
  scale : ℕ
  neg : Bool
deriving DecidableEq, Repr

namespace AncDec

/-- The representation invariant of a 64-bit tier value: the fields fit
their machine types and `frac < 10^scale`, `scale ≤ 19`. -/
def Valid (v : AncDec) : Prop :=
  v.int < 2 ^ 64 ∧ v.frac < 10 ^ v.scale ∧ v.scale ≤ 19

instance (v : AncDec) : Decidable v.Valid := by
  unfold Valid; infer_instance

/-- `AncDec::ZERO`. -/
def ZERO : AncDec := ⟨0, 0, 0, false⟩

/-- `b.wrapping_sub(b'0')` on a u8 byte, used by the parsers to classify
digit bytes. -/
def digitOf (b : ℕ) : ℕ := (b + 208) % 256

/-- The integer-part loop of `AncDec::parse_str`
(`src/ancdec/mod.rs`): accumulate digits into a u64 with checked
arithmetic, returning the value, whether any digit was seen, and the
unconsumed rest. -/
def parseIntLoop : List ℕ → ℕ → Bool → Except ParseError (ℕ × Bool × List ℕ)
  | [], acc, h => .ok (acc, h, [])
  | b :: rest, acc, h =>
    if 9 < digitOf b then .ok (acc, h, b :: rest)
    else if acc * 10 + digitOf b < 2 ^ 64 then
      parseIntLoop rest (acc * 10 + digitOf b) true
    else .error .Overflow

/-- The fractional-part loop of `AncDec::parse_str`: accumulate at most
19 digits, silently skipping further digit bytes. -/
def parseFracLoop : List ℕ → ℕ → ℕ → ℕ × ℕ × List ℕ
  | [], frac, fd => (frac, fd, [])
  | b :: rest, frac, fd =>
    if 9 < digitOf b then (frac, fd, b :: rest)
    else if fd < 19 then parseFracLoop rest (frac * 10 + digitOf b) (fd + 1)
    else parseFracLoop rest frac fd

/-- `AncDec::parse_str` from `src/ancdec/mod.rs`, over the byte values of
the input string. -/
def parse_str (s : List ℕ) : Except ParseError AncDec :=
  if s = [] then .error .Empty
  else
    let neg := s.head? = some 45
    let s1 := if neg then s.tail else s
    if s1 = [] then .error .NoDigits
    else
      match parseIntLoop s1 0 false with
      | .error e => .error e
      | .ok (int, hasDigits, rest) =>
        let rest2 := if rest.head? = some 46 then rest.tail else rest
        let p := parseFracLoop rest2 0 0
        if ¬hasDigits ∧ p.2.1 = 0 then .error .NoDigits
        else if p.2.2 ≠ [] then .error .TrailingChars
        else .ok ⟨int, p.1, p.2.1, neg⟩

/-- `AncDec::align_frac` from `src/ancdec/mod.rs`: returns
`(self_frac, other_frac, scale, limit)` with both fractional parts at the
common (larger) scale. -/
def align_frac (a b : AncDec) : ℕ × ℕ × ℕ × ℕ :=
  if a.scale = b.scale then (a.frac, b.frac, a.scale, pow10 a.scale)
  else if b.scale < a.scale then
    (a.frac, b.frac * pow10 (a.scale - b.scale), a.scale, pow10 a.scale)
  else
    (a.frac * pow10 (b.scale - a.scale), b.frac, b.scale, pow10 b.scale)

/-- `AncDec::add_aligned` from `src/ancdec/mod.rs`; `none` models the
`expect("integer overflow in addition")` abort. -/
def add_aligned (aInt aFrac bInt bFrac scale limit : ℕ) :
    Option (ℕ × ℕ × ℕ) :=
  let fracWide := aFrac + bFrac
  let overflow := if limit ≤ fracWide then 1 else 0
  let frac := (fracWide - overflow * limit) % 2 ^ 64
  if aInt + bInt + overflow < 2 ^ 64 then some (aInt + bInt + overflow, frac, scale)
  else none

/-- `AncDec::sub_with_cmp` from `src/ancdec/mod.rs`: subtract by magnitude
comparison (lexicographic on `(int, frac)`), the sign following the
larger-magnitude operand. -/
def sub_with_cmp (aInt aFrac : ℕ) (aNeg : Bool) (bInt bFrac : ℕ) (bNeg : Bool)
    (scale limit : ℕ) : AncDec :=
  if bInt < aInt ∨ (aInt = bInt ∧ bFrac ≤ aFrac) then
    let borrow := if aFrac < bFrac then 1 else 0
    ⟨aInt - bInt - borrow, ((aFrac + 2 ^ 64 - bFrac) % 2 ^ 64 + borrow * limit) % 2 ^ 64,
      scale, aNeg⟩
  else
    let borrow := if bFrac < aFrac then 1 else 0
    ⟨bInt - aInt - borrow, ((bFrac + 2 ^ 64 - aFrac) % 2 ^ 64 + borrow * limit) % 2 ^ 64,
      scale, bNeg⟩

/-- `AncDec::add` from `src/ancdec/arithmetic.rs`; `none` models the
integer-overflow abort. -/
def add (a b : AncDec) : Option AncDec :=
  let f := align_frac a b
  if a.neg = b.neg then
    match add_aligned a.int f.1 b.int f.2.1 f.2.2.1 f.2.2.2 with
    | none => none
    | some r => some ⟨r.1, r.2.1, r.2.2, a.neg⟩
  else
    some (sub_with_cmp a.int f.1 a.neg b.int f.2.1 b.neg f.2.2.1 f.2.2.2)

/-- `AncDec::sub` from `src/ancdec/arithmetic.rs`: add with the other
operand's sign flipped. -/
def sub (a b : AncDec) : Option AncDec :=
  let f := align_frac a b
  if a.neg = !b.neg then
    match add_aligned a.int f.1 b.int f.2.1 f.2.2.1 f.2.2.2 with
    | none => none
    | some r => some ⟨r.1, r.2.1, r.2.2, a.neg⟩
  else
    some (sub_with_cmp a.int f.1 a.neg b.int f.2.1 (!b.neg) f.2.2.1 f.2.2.2)

/-- `AncDec::checked_add` from `src/ancdec/arithmetic.rs`: the Rust
`Option` result (no abort path exists). -/
def checked_add (a b : AncDec) : Option AncDec :=
  let f := align_frac a b
  if a.neg = b.neg then
    let fracWide := f.1 + f.2.1
    let overflow := if f.2.2.2 ≤ fracWide then 1 else 0
    let frac := (fracWide - overflow * f.2.2.2) % 2 ^ 64
    if a.int + b.int + overflow < 2 ^ 64 then
      some ⟨a.int + b.int + overflow, frac, f.2.2.1, a.neg⟩
    else none
  else
    some (sub_with_cmp a.int f.1 a.neg b.int f.2.1 b.neg f.2.2.1 f.2.2.2)

/-- `AncDec::checked_sub` from `src/ancdec/arithmetic.rs`:
`Some(self.sub(other))`.  The outer `Option` models a panic inside `sub`;
the inner one is the Rust `Option` result. -/
def checked_sub (a b : AncDec) : Option (Option AncDec) :=
  match sub a b with
  | none => none
  | some r => some (some r)

/-- `AncDec::from_combined` from `src/ancdec/mod.rs`; `none` models the
overflow asserts. -/
def from_combined (n scale : ℕ) (neg : Bool) : Option AncDec :=
  if scale = 0 then
    if n < 2 ^ 64 then some ⟨n, 0, 0, neg⟩ else none
  else
    let divisor := pow10_128 scale
    if n / divisor < 2 ^ 64 then
      some ⟨n / divisor, n % divisor % 2 ^ 64, scale, neg⟩
    else none

/-- `AncDec::mul` from `src/ancdec/arithmetic.rs`: fast path when both
combined operands fit a u64, otherwise a u256 widening multiply; `none`
models the overflow aborts. -/
def mul (a b : AncDec) : Option AncDec :=
  let aC := a.int * pow10_128 a.scale + a.frac
  let bC := b.int * pow10_128 b.scale + b.frac
  let totalScale := a.scale + b.scale
  let neg := xor a.neg b.neg
  if aC < 2 ^ 64 ∧ bC < 2 ^ 64 then
    let product := aC % 2 ^ 64 * (bC % 2 ^ 64)
    if 19 < totalScale then
      from_combined (product / pow10_128 (totalScale - 19)) 19 neg
    else
      from_combined product totalScale neg
  else
    let p := mul_wide aC bC
    if 19 < totalScale then
      match div_wide p.1 p.2 (pow10_128 (totalScale - 19)) with
      | none => none
      | some result => from_combined result 19 neg
    else if p.1 = 0 then from_combined p.2 totalScale neg
    else none

/-- 10^19, the `SCALE19` constant from `src/util.rs`. -/
def SCALE19 : ℕ := 10 ^ 19

/-- `AncDec::div` from `src/ancdec/arithmetic.rs`: combined-integer
division scaled so the quotient carries exactly 19 fractional digits; the
quotient is split with `as u64` casts, which wrap modulo 2^64.  `none`
models the division-by-zero abort and `div_wide` asserts. -/
def div (a b : AncDec) : Option AncDec :=
  if b.int = 0 ∧ b.frac = 0 then none
  else
    let aC := a.int * pow10_128 a.scale + a.frac
    let bC := b.int * pow10_128 b.scale + b.frac
    let shift := 19 + b.scale
    let quotient? : Option ℕ :=
      if a.scale ≤ shift then
        let exp := shift - a.scale
        let multiplier := pow10_128 exp
        if aC < 2 ^ 64 ∧ bC < 2 ^ 64 ∧ exp ≤ 19 then some (aC * multiplier / bC)
        else
          let p := mul_wide aC multiplier
          div_wide p.1 p.2 bC
      else some (aC / (bC * pow10_128 (a.scale - shift)))
    match quotient? with
    | none => none
    | some quotient =>
      let q := quotient / SCALE19
      let r := quotient - q * SCALE19
      some ⟨q % 2 ^ 64, r % 2 ^ 64, 19, xor a.neg b.neg⟩

end AncDec

/-! ### Comparison, hashing, square root, formatting for `AncDec` -/

/-- Numeric comparison of two machine integers, the model of Rust's
`Ord::cmp` on unsigned integers. -/
def cmpNat (a b : ℕ) : Ordering :=
  if a < b then .lt else if b < a then .gt else .eq

/-- `Ordering::reverse` from Rust's standard library. -/
def ordRev : Ordering → Ordering
  | .lt => .gt
  | .eq => .eq
  | .gt => .lt

namespace AncDec

/-- `cmp_abs` from `src/ancdec/cmp.rs`: compare absolute values, integer
parts first, then fractional parts aligned to the common scale. -/
def cmp_abs (a b : AncDec) : Ordering :=
  if a.int ≠ b.int then cmpNat a.int b.int
  else
    let p :=
      if a.scale = b.scale then (a.frac, b.frac)
      else if b.scale < a.scale then (a.frac, b.frac * pow10 (a.scale - b.scale))
      else (a.frac * pow10 (b.scale - a.scale), b.frac)
    cmpNat p.1 p.2

/-- `Ord::cmp` for `AncDec` from `src/ancdec/cmp.rs`: two zeros are equal
regardless of sign; otherwise negative < positive, and two negatives
compare by reversed magnitude order. -/
def cmp (a b : AncDec) : Ordering :=
  if (a.int = 0 ∧ a.frac = 0) ∧ (b.int = 0 ∧ b.frac = 0) then .eq
  else
    match a.neg, b.neg with
    | false, true => .gt
    | true, false => .lt
    | false, false => cmp_abs a b
    | true, true => ordRev (cmp_abs a b)

/-- The data fed to the hasher by `Hash for AncDec`
(`src/ancdec/ops.rs`): the combined integer after the trailing-zero
stripping chain, and the sign flag when (and only when) the canonical
value is non-zero.  Two values hash identically exactly when this data
coincides. -/
def hashData (v : AncDec) : ℕ × Option Bool :=
  let c0 := v.int * pow10_128 v.scale + v.frac
  let c :=
    if 0 < c0 then
      let c1 := if c0 % 10000000000000000 = 0 then c0 / 10000000000000000 else c0
      let c2 := if c1 % 100000000 = 0 then c1 / 100000000 else c1
      let c3 := if c2 % 10000 = 0 then c2 / 10000 else c2
      let c4 := if c3 % 100 = 0 then c3 / 100 else c3
      if c4 % 10 = 0 then c4 / 10 else c4
    else c0
  (c, if c ≠ 0 then some v.neg else none)

/-- `AncDec::sqrt` from `src/ancdec/basic.rs`: combine into a single wide
integer, scale to 36 fractional digits, take the 256-bit integer square
root, and split at 18 fractional digits.  `none` models the
negative-input abort and kernel asserts. -/
def sqrt (v : AncDec) : Option AncDec :=
  if v.neg ∧ ¬(v.int = 0 ∧ v.frac = 0) then none
  else if v.int = 0 ∧ v.frac = 0 then some ZERO
  else
    let combined := v.int * pow10_128 v.scale + v.frac
    let multiplier := pow10_128 (36 - v.scale)
    let p := mul_wide combined multiplier
    match isqrt_u256 p.1 p.2 with
    | none => none
    | some x =>
      let scale18 := pow10_128 18
      some ⟨x / scale18 % 2 ^ 64, x % scale18 % 2 ^ 64, 18, false⟩

end AncDec

/-! ### Decimal digit strings (model of Rust's integer `Display`) -/

/-- Decimal digits of `n`, most significant first, `fuel` bounding the
digit count (structural recursion so concrete values reduce). -/
def toDigitsAux : ℕ → ℕ → List ℕ
  | 0, _ => []
  | fuel + 1, n => if n < 10 then [n] else toDigitsAux fuel (n / 10) ++ [n % 10]

/-- Decimal digit list of `n` (values 0-9, most significant first, a
single `0` for zero); 40 digits cover every u128. -/
def natDigits (n : ℕ) : List ℕ := toDigitsAux 40 n

/-- Zero-pad a digit list on the left to width `w`, the model of Rust's
`{:0>w$}` format specifier (no truncation when already longer). -/
def padZeros (w : ℕ) (ds : List ℕ) : List ℕ :=
  List.replicate (w - ds.length) 0 ++ ds

/-- Byte values of the digit list (digit + ASCII '0'). -/
def digitBytes (ds : List ℕ) : List ℕ := ds.map (· + 48)

/-- `Display for AncDec` without a requested precision, from
`src/lib.rs`: `[sign]int[.frac zero-padded to scale]` as a byte list
(this legacy formatter prints the sign even for negative zero). -/
def AncDec.fmt (v : AncDec) : List ℕ :=
  let sign : List ℕ := if v.neg then [45] else []
  if v.scale = 0 then sign ++ digitBytes (natDigits v.int)
  else
    sign ++ digitBytes (natDigits v.int) ++ [46] ++
      digitBytes (padZeros v.scale (natDigits v.frac))

/-! ## 128-bit tier `AncDec128` (`src/ancdec128/`) -/

/-- The 128-bit tier value record from `src/ancdec128/mod.rs`. -/
structure AncDec128 where
  int : ℕ
  frac : ℕ
  scale : ℕ
  neg : Bool
deriving DecidableEq, Repr

namespace AncDec128

/-- Representation invariant of a 128-bit tier value. -/
def Valid (v : AncDec128) : Prop :=
  v.int < 2 ^ 128 ∧ v.frac < 10 ^ v.scale ∧ v.scale ≤ 38

instance (v : AncDec128) : Decidable v.Valid := by
  unfold Valid; infer_instance

/-- Stage 1 of the integer-part loop of `AncDec128::parse_str`
(`src/ancdec128/mod.rs`): accumulate up to 18 digits into a u64
(which cannot overflow), tracking the digit count and whether any digit
was seen. -/
def parse128IntStage1 : List ℕ → ℕ → ℕ → Bool → ℕ × ℕ × Bool × List ℕ
  | [], acc, digits, h => (acc, digits, h, [])
  | b :: rest, acc, digits, h =>
    if digits < 18 then
      if 9 < AncDec.digitOf b then (acc, digits, h, b :: rest)
      else parse128IntStage1 rest (acc * 10 + AncDec.digitOf b) (digits + 1) true
    else (acc, digits, h, b :: rest)

/-- Stage 2 of the integer-part loop of `AncDec128::parse_str`: checked
u128 accumulation of the remaining digits (run only when stage 1 consumed
18 digits, in which case a digit was already seen). -/
def parse128IntStage2 : List ℕ → ℕ → Except ParseError (ℕ × List ℕ)
  | [], acc => .ok (acc, [])
  | b :: rest, acc =>
    if 9 < AncDec.digitOf b then .ok (acc, b :: rest)
    else if acc * 10 + AncDec.digitOf b < 2 ^ 128 then
      parse128IntStage2 rest (acc * 10 + AncDec.digitOf b)
    else .error .Overflow

/-- Stage 2 of the fractional-part loop of `AncDec128::parse_str`:
consume digits, accumulating only while fewer than 38 digits were kept. -/
def parse128FracStage2 : List ℕ → ℕ → ℕ → ℕ × ℕ × List ℕ
  | [], frac, fd => (frac, fd, [])
  | b :: rest, frac, fd =>
    if 9 < AncDec.digitOf b then (frac, fd, b :: rest)
    else if fd < 38 then parse128FracStage2 rest (frac * 10 + AncDec.digitOf b) (fd + 1)
    else parse128FracStage2 rest frac fd

/-- `AncDec128::parse_str` from `src/ancdec128/mod.rs`, over the byte
values of the input string (two-stage u64/u128 digit accumulation for
both the integer and fractional parts). -/
def parse_str (s : List ℕ) : Except ParseError AncDec128 :=
  if s = [] then .error .Empty
  else
    let neg := s.head? = some 45
    let s1 := if neg then s.tail else s
    if s1 = [] then .error .NoDigits
    else
      let st1 := parse128IntStage1 s1 0 0 false
      let int1 := st1.1
      let intDigits := st1.2.1
      let hasDigits := st1.2.2.1
      match (if intDigits = 18 then parse128IntStage2 st1.2.2.2 int1
             else .ok (int1, st1.2.2.2)) with
      | .error e => .error e
      | .ok (int, rest) =>
        let rest2 := if rest.head? = some 46 then rest.tail else rest
        let fs1 := parse128IntStage1 rest2 0 0 false
        let frac1 := fs1.1
        let fracDigits1 := fs1.2.1
        let p := if fracDigits1 = 18 then parse128FracStage2 fs1.2.2.2 frac1 18
                 else (frac1, fracDigits1, fs1.2.2.2)
        if ¬hasDigits ∧ p.2.1 = 0 then .error .NoDigits
        else if p.2.2 ≠ [] then .error .TrailingChars
        else .ok ⟨int, p.1, p.2.1, neg⟩

/-- `cmp_abs_128` from `src/ancdec128/cmp.rs`. -/
def cmp_abs (a b : AncDec128) : Ordering :=
  if a.int ≠ b.int then cmpNat a.int b.int
  else
    let p :=
      if a.scale = b.scale then (a.frac, b.frac)
      else if b.scale < a.scale then (a.frac, b.frac * pow10_128 (a.scale - b.scale))
      else (a.frac * pow10_128 (b.scale - a.scale), b.frac)
    cmpNat p.1 p.2

/-- `Ord::cmp` for `AncDec128` from `src/ancdec128/cmp.rs`. -/
def cmp (a b : AncDec128) : Ordering :=
  if (a.int = 0 ∧ a.frac = 0) ∧ (b.int = 0 ∧ b.frac = 0) then .eq
  else
    match a.neg, b.neg with
    | false, true => .gt
    | true, false => .lt
    | false, false => cmp_abs a b
    | true, true => ordRev (cmp_abs a b)

/-- `Display for AncDec128` without a requested precision, from
`src/ancdec128/fmt_impl.rs`: the sign is suppressed when the value is
zero; `[sign]int[.frac zero-padded to scale]` as a byte list. -/
def fmt (v : AncDec128) : List ℕ :=
  let isZero := v.int = 0 ∧ v.frac = 0
  let sign : List ℕ := if v.neg ∧ ¬isZero then [45] else []
  if v.scale = 0 then sign ++ digitBytes (natDigits v.int)
  else
    sign ++ digitBytes (natDigits v.int) ++ [46] ++
      digitBytes (padZeros v.scale (natDigits v.frac))

end AncDec128

/-! ## 32-bit tier `AncDec32` rounding (`src/ancdec32/`) -/

/-- `RoundMode` from `src/round_mode.rs`. -/
inductive RoundMode where
  | Floor
  | Ceil
  | Truncate
  | HalfUp
  | HalfDown
  | HalfEven
  | Fract
deriving DecidableEq, Repr

/-- The 32-bit tier value record from `src/ancdec32/mod.rs`. -/
structure AncDec32 where
  int : ℕ
  frac : ℕ
  scale : ℕ
  neg : Bool
deriving DecidableEq, Repr

namespace AncDec32

/-- Representation invariant of a 32-bit tier value. -/
def Valid (v : AncDec32) : Prop :=
  v.int < 2 ^ 32 ∧ v.frac < 10 ^ v.scale ∧ v.scale ≤ 9

instance (v : AncDec32) : Decidable v.Valid := by
  unfold Valid; infer_instance

/-- `AncDec32::from_combined` from `src/ancdec32/mod.rs`; `none` models
the overflow asserts. -/
def from_combined (n scale : ℕ) (neg : Bool) : Option AncDec32 :=
  if scale = 0 then
    if n < 2 ^ 32 then some ⟨n, 0, 0, neg⟩ else none
  else
    let divisor := pow10 scale
    if n / divisor < 2 ^ 32 then
      some ⟨n / divisor, n % divisor % 2 ^ 32, scale, neg⟩
    else none

/-- `AncDec32::should_round_up` from `src/ancdec32/rounding.rs`. -/
def should_round_up (v : AncDec32) (truncated remainder divisor : ℕ)
    (mode : RoundMode) : Bool :=
  if remainder = 0 then false
  else
    let half := divisor / 2
    match mode with
    | .Floor => v.neg
    | .Ceil => !v.neg
    | .Truncate => false
    | .HalfUp => decide (half ≤ remainder)
    | .HalfDown => decide (half < remainder)
    | .HalfEven => decide (half < remainder) ||
        (decide (remainder = half) && decide (truncated % 2 = 1))
    | .Fract => false

/-- `AncDec32::round` from `src/ancdec32/rounding.rs`: `Fract` returns
the fractional part before any scale check; otherwise values already at
or below the requested scale are returned unchanged, and the combined
value is split and conditionally incremented. -/
def round (v : AncDec32) (decimalPlaces : ℕ) (mode : RoundMode) :
    Option AncDec32 :=
  if mode = .Fract then some ⟨0, v.frac, v.scale, v.neg⟩
  else if v.scale ≤ decimalPlaces then some v
  else
    let combined := v.int * pow10 v.scale + v.frac
    let cut := v.scale - decimalPlaces
    let divisor := pow10 cut
    let remainder := combined % divisor
    let truncated := combined / divisor
    if should_round_up v truncated remainder divisor mode then
      from_combined (truncated + 1) decimalPlaces v.neg
    else
      from_combined truncated decimalPlaces v.neg

end AncDec32

/-! ## Spec-side value semantics -/

/-- The combined integer of a 64-bit tier value,
`integer_part * 10^scale + fractional_part` (spec glossary). -/
def AncDec.combined (v : AncDec) : ℕ := v.int * 10 ^ v.scale + v.frac

/-- The exact signed rational value of a 64-bit tier value,
`(-1)^neg * (integer_part + fractional_part / 10^scale)`. -/
def AncDec.ratVal (v : AncDec) : ℚ :=
  (if v.neg then -1 else 1) * ((v.int : ℚ) + (v.frac : ℚ) / 10 ^ v.scale)

/-! ## Theorems -/

/-- **C8** — Parsing a numeral whose integer part exceeds the 64-bit
tier's native width fails with the `Overflow` parse error rather than
silently saturating: `parse_str` on twenty `'9'` bytes returns the error
and no value. -/
theorem claim_C8_parse_int_overflow_errors :
    AncDec.parse_str (List.replicate 20 57) = .error .Overflow := by
  decide

/-- **C10** — Division overflow is neither detected nor fatal: with
`a = 2` and `b = 0.0000000000000000001`, whose true truncated quotient has
integer part `2 * 10^19 > 2^64 - 1`, `div` returns a present value whose
integer part is the true integer part reduced modulo `2^64`. -/
theorem claim_C10_div_overflow_wraps_silently :
    AncDec.div ⟨2, 0, 0, false⟩ ⟨0, 1, 19, false⟩ =
      some ⟨2 * 10 ^ 19 % 2 ^ 64, 0, 19, false⟩ ∧
    2 * 10 ^ 19 % 2 ^ 64 ≠ 2 * 10 ^ 19 ∧
    (⟨2, 0, 0, false⟩ : AncDec).Valid ∧ (⟨0, 1, 19, false⟩ : AncDec).Valid := by
  refine ⟨by decide, by decide, by decide, by decide⟩

/-- **C5** — The claim that the stripping chain canonicalizes any two
equal values fails on the code: the chain strips at most 31 trailing
factors of ten, but a combined value can carry up to 38; at
`a = 10^13` stored with scale 19 and `b = 10^13` stored with scale 0 the
values compare equal yet the hasher is fed canonical integers 10 and 1
(so their hashes differ). -/
theorem claim_C5_hash_disagrees_with_equality_at_input :
    AncDec.cmp ⟨10 ^ 13, 0, 19, false⟩ ⟨10 ^ 13, 0, 0, false⟩ = .eq ∧
    (⟨10 ^ 13, 0, 19, false⟩ : AncDec).Valid ∧
    (⟨10 ^ 13, 0, 0, false⟩ : AncDec).Valid ∧
    AncDec.hashData ⟨10 ^ 13, 0, 19, false⟩ = (10, some false) ∧
    AncDec.hashData ⟨10 ^ 13, 0, 0, false⟩ = (1, some false) := by
  refine ⟨by decide, by decide, by decide, by decide, by decide⟩

/-- **C6 (counterexample)** — `checked_sub` is not total: subtracting
`-(u64::MAX)` from `u64::MAX` routes through magnitude *addition*, whose
integer part overflows, and the `expect` aborts (modelled as `none`)
instead of returning a present result. -/
theorem claim_C6_counterexample_checked_sub_aborts :
    AncDec.checked_sub ⟨2 ^ 64 - 1, 0, 0, false⟩ ⟨2 ^ 64 - 1, 0, 0, true⟩ = none ∧
    (⟨2 ^ 64 - 1, 0, 0, false⟩ : AncDec).Valid ∧
    (⟨2 ^ 64 - 1, 0, 0, true⟩ : AncDec).Valid := by
  refine ⟨by decide, by decide, by decide⟩

/-- **C9 (counterexample)** — `round(places, mode)` does not return the
value unchanged for every mode when `scale ≤ places`: `Fract` is handled
before the scale check, so rounding the integer `5` at 0 places with
`Fract` yields `0`, not `5`. -/
theorem claim_C9_counterexample_fract_changes_value :
    AncDec32.round ⟨5, 0, 0, false⟩ 0 .Fract = some ⟨0, 0, 0, false⟩ ∧
    (⟨5, 0, 0, false⟩ : AncDec32).Valid ∧
    (⟨5, 0, 0, false⟩ : AncDec32).scale ≤ 0 ∧
    some (⟨0, 0, 0, false⟩ : AncDec32) ≠ some (⟨5, 0, 0, false⟩ : AncDec32) := by
  refine ⟨by decide, by decide, by decide, by decide⟩

/-- **C7 (counterexample)** — In the 64-bit tier, `"10" / "4"` does not
format as the claimed 18-fractional-digit string `"2.500000000000000000"`:
the quotient has scale 19 with fractional part `5 * 10^18`, which formats
with 19 fractional digits. -/
theorem claim_C7_counterexample_formatted_digit_count :
    AncDec.parse_str [49, 48] = .ok ⟨10, 0, 0, false⟩ ∧
    AncDec.parse_str [52] = .ok ⟨4, 0, 0, false⟩ ∧
    AncDec.div ⟨10, 0, 0, false⟩ ⟨4, 0, 0, false⟩ =
      some ⟨2, 5 * 10 ^ 18, 19, false⟩ ∧
    AncDec.fmt ⟨2, 5 * 10 ^ 18, 19, false⟩ ≠
      50 :: 46 :: 53 :: List.replicate 17 48 := by
  refine ⟨by decide, by decide, by decide, by decide⟩

/-- **C7 (amended)** — `"10" / "4"` in the 64-bit tier produces the
truncated quotient at target scale 19 and formats as
`"2.5000000000000000000"` (19 fractional digits). -/
theorem claim_C7_div_ten_by_four_formats_at_scale_19 :
    AncDec.parse_str [49, 48] = .ok ⟨10, 0, 0, false⟩ ∧
    AncDec.parse_str [52] = .ok ⟨4, 0, 0, false⟩ ∧
    AncDec.div ⟨10, 0, 0, false⟩ ⟨4, 0, 0, false⟩ =
      some ⟨2, 5 * 10 ^ 18, 19, false⟩ ∧
    AncDec.fmt ⟨2, 5 * 10 ^ 18, 19, false⟩ =
      50 :: 46 :: 53 :: List.replicate 18 48 := by
  refine ⟨by decide, by decide, by decide, by decide⟩

/-- **C6 (amended)** — `checked_sub` never returns an absent result, and
for equal-signed operands (a true magnitude subtraction) it always
returns a present result without aborting; only opposite-signed operands
reach the magnitude-addition path that can abort. -/
theorem claim_C6_checked_sub_never_absent :
    (∀ a b : AncDec, AncDec.checked_sub a b ≠ some none) ∧
    (∀ a b : AncDec, a.neg = b.neg →
      ∃ r, AncDec.checked_sub a b = some (some r)) := by
  constructor
  · intro a b
    unfold AncDec.checked_sub
    cases AncDec.sub a b <;> simp
  · intro a b h
    unfold AncDec.checked_sub AncDec.sub
    rw [h]
    cases b.neg <;> simp

/-- Witness for C6: concrete application of
`claim_C6_checked_sub_never_absent`. -/
theorem claim_C6_checked_sub_never_absent_witness :
    AncDec.checked_sub ⟨3, 1, 1, false⟩ ⟨1, 2, 1, false⟩ ≠ some none ∧
    (⟨3, 1, 1, false⟩ : AncDec).neg = (⟨1, 2, 1, false⟩ : AncDec).neg ∧
    ∃ r, AncDec.checked_sub ⟨3, 1, 1, false⟩ ⟨1, 2, 1, false⟩ = some (some r) :=
  ⟨claim_C6_checked_sub_never_absent.1 _ _, rfl,
   claim_C6_checked_sub_never_absent.2 _ _ rfl⟩

/-- **C9 (amended)** — HalfEven rounding sends exact halves to the even
digit and other remainders to the nearest value: when rounding below the
current scale, the kept value is incremented exactly when twice the
discarded remainder exceeds the divisor, or equals it with the truncated
value odd; `round(2.5, 0, HalfEven) = 2` and `round(3.5, 0, HalfEven) = 4`;
and for every mode *other than `Fract`* a value whose scale is at most
the requested places is returned unchanged (the original claim's
unconditional "returned unchanged" fails for `Fract`). -/
theorem claim_C9_half_even_rounding :
    (∀ (v : AncDec32) (places : ℕ) (mode : RoundMode), mode ≠ .Fract →
      v.scale ≤ places → AncDec32.round v places mode = some v) ∧
    (∀ (v : AncDec32) (places : ℕ), places < v.scale →
      AncDec32.round v places .HalfEven =
        AncDec32.from_combined
          (if 10 ^ (v.scale - places) <
                2 * ((v.int * 10 ^ v.scale + v.frac) % 10 ^ (v.scale - places)) ∨
              (2 * ((v.int * 10 ^ v.scale + v.frac) % 10 ^ (v.scale - places)) =
                  10 ^ (v.scale - places) ∧
                (v.int * 10 ^ v.scale + v.frac) / 10 ^ (v.scale - places) % 2 = 1)
            then (v.int * 10 ^ v.scale + v.frac) / 10 ^ (v.scale - places) + 1
            else (v.int * 10 ^ v.scale + v.frac) / 10 ^ (v.scale - places))
          places v.neg) ∧
    AncDec32.round ⟨2, 5, 1, false⟩ 0 .HalfEven = some ⟨2, 0, 0, false⟩ ∧
    AncDec32.round ⟨3, 5, 1, false⟩ 0 .HalfEven = some ⟨4, 0, 0, false⟩ := by
  refine ⟨?_, ?_, by decide, by decide⟩
  · intro v places mode hm hs
    unfold AncDec32.round
    rw [if_neg hm, if_pos hs]
  · intro v places hp
    unfold AncDec32.round AncDec32.should_round_up
    rw [if_neg (by simp), if_neg (by omega)]
    rw [← apply_ite (fun n => AncDec32.from_combined n places v.neg)]
    set c := v.int * 10 ^ v.scale + v.frac with hc
    set cut := v.scale - places with hcut
    have hcut1 : 1 ≤ cut := by omega
    have hdvd : 10 ^ cut = 2 * (10 ^ cut / 2) := by
      have : (2 : ℕ) ∣ 10 ^ cut := by
        have : (10 : ℕ) ^ cut = 2 ^ cut * 5 ^ cut := by
          rw [← Nat.mul_pow]
        rw [this]
        exact Dvd.dvd.mul_right (dvd_pow_self 2 (by omega)) _
      omega
    have hrlt : c % 10 ^ cut < 10 ^ cut := Nat.mod_lt _ (by positivity)
    congr 1
    simp only [pow10]
    by_cases h0 : c % 10 ^ cut = 0
    · rw [if_pos h0]
      simp only [if_neg (by omega : ¬(10 ^ cut < 2 * (c % 10 ^ cut) ∨
        (2 * (c % 10 ^ cut) = 10 ^ cut ∧ c / 10 ^ cut % 2 = 1)))]
      simp [Bool.false_eq_true]
    · rw [if_neg h0]
      by_cases hcond : 10 ^ cut < 2 * (c % 10 ^ cut) ∨
          (2 * (c % 10 ^ cut) = 10 ^ cut ∧ c / 10 ^ cut % 2 = 1)
      · rw [if_pos hcond]
        have : (decide (10 ^ cut / 2 < c % 10 ^ cut) ||
            (decide (c % 10 ^ cut = 10 ^ cut / 2) &&
              decide (c / 10 ^ cut % 2 = 1))) = true := by
          rcases hcond with h | ⟨h1, h2⟩
          · simp only [Bool.or_eq_true, decide_eq_true_eq]
            left; omega
          · simp only [Bool.or_eq_true, Bool.and_eq_true, decide_eq_true_eq]
            right; exact ⟨by omega, h2⟩
        simp [this]
      · rw [if_neg hcond]
        have : (decide (10 ^ cut / 2 < c % 10 ^ cut) ||
            (decide (c % 10 ^ cut = 10 ^ cut / 2) &&
              decide (c / 10 ^ cut % 2 = 1))) = false := by
          simp only [Bool.or_eq_false_iff, Bool.and_eq_false_iff,
            decide_eq_false_iff_not]
          push_neg at hcond
          constructor
          · omega
          · by_cases hhalf : c % 10 ^ cut = 10 ^ cut / 2
            · right
              intro hodd
              exact absurd (hcond.2 (by omega)) (by simp [hodd])
            · left; exact hhalf
        simp [this]

/-- Witness for C9: concrete application of
`claim_C9_half_even_rounding`. -/
theorem claim_C9_half_even_rounding_witness :
    AncDec32.round ⟨7, 25, 2, false⟩ 3 .HalfUp = some ⟨7, 25, 2, false⟩ ∧
    AncDec32.round ⟨7, 25, 2, false⟩ 1 .HalfEven =
      AncDec32.from_combined
        (if 10 ^ (2 - 1) < 2 * ((7 * 10 ^ 2 + 25) % 10 ^ (2 - 1)) ∨
            (2 * ((7 * 10 ^ 2 + 25) % 10 ^ (2 - 1)) = 10 ^ (2 - 1) ∧
              (7 * 10 ^ 2 + 25) / 10 ^ (2 - 1) % 2 = 1)
          then (7 * 10 ^ 2 + 25) / 10 ^ (2 - 1) + 1
          else (7 * 10 ^ 2 + 25) / 10 ^ (2 - 1))
        1 false :=
  ⟨claim_C9_half_even_rounding.1 ⟨7, 25, 2, false⟩ 3 .HalfUp (by decide) (by decide),
   claim_C9_half_even_rounding.2.1 ⟨7, 25, 2, false⟩ 1 (by decide)⟩

/-! ### C4: comparison is the total order of the exact rational values -/

/-- Lexicographic splitting of `cmpNat` on base-`P` combined values. -/
theorem cmpNat_lex {P ai af bi bf : ℕ} (ha : af < P) (hb : bf < P) :
    cmpNat (ai * P + af) (bi * P + bf) =
      if ai = bi then cmpNat af bf else cmpNat ai bi := by
  by_cases h : ai = bi
  · subst h
    rw [if_pos rfl]
    unfold cmpNat
    by_cases h1 : af < bf
    · rw [if_pos (by omega), if_pos h1]
    · by_cases h2 : bf < af
      · rw [if_neg (by omega), if_pos (by omega), if_neg (by omega), if_pos h2]
      · rw [if_neg (by omega), if_neg (by omega), if_neg (by omega), if_neg (by omega)]
  · rw [if_neg h]
    rcases Nat.lt_or_ge ai bi with hlt | hge
    · have key : ai * P + af < bi * P + bf := by
        calc ai * P + af < ai * P + P := by omega
        _ = (ai + 1) * P := by ring
        _ ≤ bi * P := Nat.mul_le_mul_right P (by omega)
        _ ≤ bi * P + bf := Nat.le_add_right _ _
      unfold cmpNat
      rw [if_pos key, if_pos hlt]
    · have hlt : bi < ai := by omega
      have key : bi * P + bf < ai * P + af := by
        calc bi * P + bf < bi * P + P := by omega
        _ = (bi + 1) * P := by ring
        _ ≤ ai * P := Nat.mul_le_mul_right P (by omega)
        _ ≤ ai * P + af := Nat.le_add_right _ _
      unfold cmpNat
      rw [if_neg (by omega), if_pos key, if_neg (by omega), if_pos hlt]

/-- `cmpNat` agrees with the order comparison of equal-denominator
rationals. -/
theorem cmpNat_cast_div (u w : ℕ) (c : ℚ) (hc : 0 < c) :
    cmp ((u : ℚ) / c) ((w : ℚ) / c) = cmpNat u w := by
  unfold cmpNat
  by_cases h1 : u < w
  · rw [if_pos h1, cmp_eq_lt_iff, div_lt_div_right hc]
    exact_mod_cast h1
  · rw [if_neg h1]
    by_cases h2 : w < u
    · rw [if_pos h2, cmp_eq_gt_iff, div_lt_div_right hc]
      exact_mod_cast h2
    · rw [if_neg h2, cmp_eq_eq_iff]
      have : u = w := by omega
      rw [this]

/-- Case normal form of `cmp_abs`. -/
theorem cmp_abs_cases (a b : AncDec) :
    AncDec.cmp_abs a b =
      if a.int = b.int then
        (if a.scale = b.scale then cmpNat a.frac b.frac
         else if b.scale < a.scale then
           cmpNat a.frac (b.frac * pow10 (a.scale - b.scale))
         else cmpNat (a.frac * pow10 (b.scale - a.scale)) b.frac)
      else cmpNat a.int b.int := by
  unfold AncDec.cmp_abs
  simp only [ne_eq]
  split_ifs <;> rfl

/-- `cmp_abs` compares the combined magnitudes brought to the common
scale. -/
theorem cmp_abs_eq_combined (a b : AncDec) (ha : a.Valid) (hb : b.Valid) :
    AncDec.cmp_abs a b =
      cmpNat (a.combined * 10 ^ (max a.scale b.scale - a.scale))
             (b.combined * 10 ^ (max a.scale b.scale - b.scale)) := by
  obtain ⟨-, haf, -⟩ := ha
  obtain ⟨-, hbf, -⟩ := hb
  rw [cmp_abs_cases]
  unfold AncDec.combined pow10
  have hten : (0 : ℕ) < 10 := by norm_num
  rcases Nat.lt_trichotomy a.scale b.scale with hs | hs | hs
  · have hmax : max a.scale b.scale = b.scale := by omega
    rw [hmax, if_neg (show ¬a.scale = b.scale by omega),
      if_neg (show ¬b.scale < a.scale by omega)]
    have hxa : (a.int * 10 ^ a.scale + a.frac) * 10 ^ (b.scale - a.scale) =
        a.int * 10 ^ b.scale + a.frac * 10 ^ (b.scale - a.scale) := by
      rw [Nat.add_mul, Nat.mul_assoc, ← pow_add]
      congr 3
      omega
    have hxb : (b.int * 10 ^ b.scale + b.frac) * 10 ^ (b.scale - b.scale) =
        b.int * 10 ^ b.scale + b.frac := by
      simp
    rw [hxa, hxb]
    have hra : a.frac * 10 ^ (b.scale - a.scale) < 10 ^ b.scale := by
      calc a.frac * 10 ^ (b.scale - a.scale) <
          10 ^ a.scale * 10 ^ (b.scale - a.scale) :=
            (Nat.mul_lt_mul_right (pow_pos hten _)).mpr haf
      _ = 10 ^ b.scale := by rw [← pow_add]; congr 1; omega
    rw [cmpNat_lex hra hbf]
  · rw [hs] at haf ⊢
    simp only [max_self, Nat.sub_self, pow_zero, mul_one]
    rw [if_pos trivial, cmpNat_lex haf hbf]
  · have hmax : max a.scale b.scale = a.scale := by omega
    rw [hmax, if_neg (show ¬a.scale = b.scale by omega), if_pos hs]
    have hxb : (b.int * 10 ^ b.scale + b.frac) * 10 ^ (a.scale - b.scale) =
        b.int * 10 ^ a.scale + b.frac * 10 ^ (a.scale - b.scale) := by
      rw [Nat.add_mul, Nat.mul_assoc, ← pow_add]
      congr 3
      omega
    have hxa : (a.int * 10 ^ a.scale + a.frac) * 10 ^ (a.scale - a.scale) =
        a.int * 10 ^ a.scale + a.frac := by
      simp
    rw [hxa, hxb]
    have hrb : b.frac * 10 ^ (a.scale - b.scale) < 10 ^ a.scale := by
      calc b.frac * 10 ^ (a.scale - b.scale) <
          10 ^ b.scale * 10 ^ (a.scale - b.scale) :=
            (Nat.mul_lt_mul_right (pow_pos hten _)).mpr hbf
      _ = 10 ^ a.scale := by rw [← pow_add]; congr 1; omega
    rw [cmpNat_lex haf hrb]

/-- The rational value as the combined integer over the scale power. -/
theorem ratVal_eq_combined (v : AncDec) :
    v.ratVal = (if v.neg then -1 else 1) * ((v.combined : ℚ) / 10 ^ v.scale) := by
  unfold AncDec.ratVal AncDec.combined
  have h10 : ((10 : ℚ) ^ v.scale) ≠ 0 := by positivity
  push_cast
  field_simp

/-- The magnitude of `ratVal` at the common scale. -/
theorem combined_div_scale (v : AncDec) (m : ℕ) (hm : v.scale ≤ m) :
    ((v.combined : ℚ) * 10 ^ (m - v.scale)) / 10 ^ m =
      (v.combined : ℚ) / 10 ^ v.scale := by
  have h1 : ((10 : ℚ) ^ v.scale) ≠ 0 := by positivity
  have h2 : ((10 : ℚ) ^ (m - v.scale)) ≠ 0 := by positivity
  have hm' : (10 : ℚ) ^ m = 10 ^ v.scale * 10 ^ (m - v.scale) := by
    rw [← pow_add]
    congr 1
    omega
  rw [hm']
  field_simp
  ring

/-- Negating both rationals reverses their comparison. -/
theorem cmp_neg_ordRev (x y : ℚ) : cmp (-x) (-y) = ordRev (cmp x y) := by
  rcases lt_trichotomy x y with h | h | h
  · rw [(cmp_eq_lt_iff x y).mpr h]
    show cmp (-x) (-y) = ordRev Ordering.lt
    rw [show ordRev Ordering.lt = Ordering.gt from rfl, cmp_eq_gt_iff]
    exact neg_lt_neg h
  · rw [h, cmp_self_eq_eq, cmp_self_eq_eq]
    rfl
  · rw [(cmp_eq_gt_iff x y).mpr h]
    show cmp (-x) (-y) = ordRev Ordering.gt
    rw [show ordRev Ordering.gt = Ordering.lt from rfl, cmp_eq_lt_iff]
    exact neg_lt_neg h

/-- A value that is not the zero pattern has positive combined integer. -/
theorem combined_pos (v : AncDec) (hv : ¬(v.int = 0 ∧ v.frac = 0)) :
    0 < v.combined := by
  unfold AncDec.combined
  by_cases hi : v.int = 0
  · simp only [hi, Nat.zero_mul, Nat.zero_add]
    omega
  · have h10 : 0 < 10 ^ v.scale := pow_pos (by norm_num) _
    have : 10 ^ v.scale ≤ v.int * 10 ^ v.scale :=
      Nat.le_mul_of_pos_left _ (by omega)
    omega

/-- The zero pattern has rational value zero, whatever its sign bit. -/
theorem ratVal_zero (v : AncDec) (hv : v.int = 0 ∧ v.frac = 0) :
    v.ratVal = 0 := by
  unfold AncDec.ratVal
  rw [hv.1, hv.2]
  simp

/-- The rational magnitude as a common-scale fraction. -/
theorem ratVal_of_sign (v : AncDec) (m : ℕ) (hm : v.scale ≤ m) :
    v.ratVal = (if v.neg then -1 else 1) *
      (((v.combined * 10 ^ (m - v.scale) : ℕ) : ℚ) / 10 ^ m) := by
  rw [ratVal_eq_combined]
  congr 1
  push_cast
  rw [combined_div_scale v m hm]

/-- **C4** — Comparison is the total order of the exact signed rational
values: for valid values, `cmp a b` equals the comparison of
`(-1)^neg * (integer_part + fractional_part / 10^scale)`; in particular
`parse("1.2") == parse("1.20")`. -/
theorem claim_C4_cmp_is_exact_rational_order :
    (∀ a b : AncDec, a.Valid → b.Valid →
      AncDec.cmp a b = cmp a.ratVal b.ratVal) ∧
    AncDec.parse_str [49, 46, 50] = .ok ⟨1, 2, 1, false⟩ ∧
    AncDec.parse_str [49, 46, 50, 48] = .ok ⟨1, 20, 2, false⟩ ∧
    AncDec.cmp ⟨1, 2, 1, false⟩ ⟨1, 20, 2, false⟩ = .eq := by
  refine ⟨?_, rfl, rfl, by decide⟩
  intro a b ha hb
  have hma : a.scale ≤ max a.scale b.scale := le_max_left _ _
  have hmb : b.scale ≤ max a.scale b.scale := le_max_right _ _
  have hposm : (0 : ℚ) < 10 ^ max a.scale b.scale := by positivity
  unfold AncDec.cmp
  by_cases hz : (a.int = 0 ∧ a.frac = 0) ∧ (b.int = 0 ∧ b.frac = 0)
  · rw [if_pos hz, ratVal_zero a hz.1, ratVal_zero b hz.2, cmp_self_eq_eq]
  · rw [if_neg hz]
    have hra := ratVal_of_sign a (max a.scale b.scale) hma
    have hrb := ratVal_of_sign b (max a.scale b.scale) hmb
    have hposa : (0:ℚ) ≤ ((a.combined * 10 ^ (max a.scale b.scale - a.scale) : ℕ) : ℚ) /
        10 ^ max a.scale b.scale := by positivity
    have hposb : (0:ℚ) ≤ ((b.combined * 10 ^ (max a.scale b.scale - b.scale) : ℕ) : ℚ) /
        10 ^ max a.scale b.scale := by positivity
    have hstricta : ¬(a.int = 0 ∧ a.frac = 0) →
        (0:ℚ) < ((a.combined * 10 ^ (max a.scale b.scale - a.scale) : ℕ) : ℚ) /
          10 ^ max a.scale b.scale := by
      intro h
      apply div_pos _ hposm
      have h1 := combined_pos a h
      have h2 : (0:ℕ) < 10 ^ (max a.scale b.scale - a.scale) := pow_pos (by norm_num) _
      exact_mod_cast Nat.mul_pos h1 h2
    have hstrictb : ¬(b.int = 0 ∧ b.frac = 0) →
        (0:ℚ) < ((b.combined * 10 ^ (max a.scale b.scale - b.scale) : ℕ) : ℚ) /
          10 ^ max a.scale b.scale := by
      intro h
      apply div_pos _ hposm
      have h1 := combined_pos b h
      have h2 : (0:ℕ) < 10 ^ (max a.scale b.scale - b.scale) := pow_pos (by norm_num) _
      exact_mod_cast Nat.mul_pos h1 h2
    have hzeroa : (a.int = 0 ∧ a.frac = 0) →
        ((a.combined * 10 ^ (max a.scale b.scale - a.scale) : ℕ) : ℚ) /
          10 ^ max a.scale b.scale = 0 := by
      intro h
      have : a.combined = 0 := by unfold AncDec.combined; rw [h.1, h.2]; ring
      rw [this]
      simp
    have hzerob : (b.int = 0 ∧ b.frac = 0) →
        ((b.combined * 10 ^ (max a.scale b.scale - b.scale) : ℕ) : ℚ) /
          10 ^ max a.scale b.scale = 0 := by
      intro h
      have : b.combined = 0 := by unfold AncDec.combined; rw [h.1, h.2]; ring
      rw [this]
      simp
    cases hna : a.neg <;> cases hnb : b.neg <;>
      rw [hna] at hra <;> rw [hnb] at hrb <;>
      simp only [if_pos, if_neg, Bool.false_eq_true, reduceIte] at hra hrb
    · rw [hra, hrb, one_mul, one_mul,
        cmpNat_cast_div _ _ _ hposm, cmp_abs_eq_combined a b ha hb]
    · show Ordering.gt = _
      rw [hra, hrb, one_mul]
      symm
      rw [cmp_eq_gt_iff]
      by_cases haz : a.int = 0 ∧ a.frac = 0
      · have hbz : ¬(b.int = 0 ∧ b.frac = 0) := fun h => hz ⟨haz, h⟩
        have := hstrictb hbz
        have h0 := hzeroa haz
        rw [h0]
        linarith
      · have := hstricta haz
        linarith [hposb]
    · show Ordering.lt = _
      rw [hra, hrb, one_mul]
      symm
      rw [cmp_eq_lt_iff]
      by_cases hbz : b.int = 0 ∧ b.frac = 0
      · have haz : ¬(a.int = 0 ∧ a.frac = 0) := fun h => hz ⟨h, hbz⟩
        have := hstricta haz
        have h0 := hzerob hbz
        rw [h0]
        linarith
      · have := hstrictb hbz
        linarith [hposa]
    · rw [hra, hrb, neg_one_mul, neg_one_mul, cmp_neg_ordRev,
        cmpNat_cast_div _ _ _ hposm, cmp_abs_eq_combined a b ha hb]

/-- Witness for C4: concrete application of
`claim_C4_cmp_is_exact_rational_order`. -/
theorem claim_C4_cmp_is_exact_rational_order_witness :
    (⟨3, 25, 2, true⟩ : AncDec).Valid ∧ (⟨3, 5, 1, true⟩ : AncDec).Valid ∧
    AncDec.cmp ⟨3, 25, 2, true⟩ ⟨3, 5, 1, true⟩ =
      cmp (AncDec.ratVal ⟨3, 25, 2, true⟩) (AncDec.ratVal ⟨3, 5, 1, true⟩) :=
  ⟨by decide, by decide,
   claim_C4_cmp_is_exact_rational_order.1 _ _ (by decide) (by decide)⟩

/-! ### C3: digit-string lemmas for the parse/format round trip -/

/-- Accumulating digits from a non-zero initial value splits into the
initial value shifted past the list plus the list's own value. -/
theorem foldl_digits_acc (ds : List ℕ) (acc : ℕ) :
    List.foldl (fun a d => a * 10 + d) acc ds =
      acc * 10 ^ ds.length + List.foldl (fun a d => a * 10 + d) 0 ds := by
  induction ds generalizing acc with
  | nil => simp
  | cons d tl ih =>
    simp only [List.foldl_cons, List.length_cons]
    rw [ih (acc * 10 + d), ih (0 * 10 + d)]
    ring

/-- Digit-list value of a concatenation. -/
theorem foldl_digits_append (xs ys : List ℕ) :
    List.foldl (fun a d => a * 10 + d) 0 (xs ++ ys) =
      List.foldl (fun a d => a * 10 + d) 0 xs * 10 ^ ys.length +
        List.foldl (fun a d => a * 10 + d) 0 ys := by
  rw [List.foldl_append, foldl_digits_acc]

/-- Leading zeros do not change a digit list's value. -/
theorem foldl_digits_replicate_zero (k : ℕ) (ds : List ℕ) :
    List.foldl (fun a d => a * 10 + d) 0 (List.replicate k 0 ++ ds) =
      List.foldl (fun a d => a * 10 + d) 0 ds := by
  induction k with
  | zero => simp
  | succ k ih => simpa using ih

/-- `toDigitsAux` recovers its input when given enough fuel. -/
theorem toDigitsAux_val : ∀ fuel n, n < 10 ^ fuel →
    List.foldl (fun a d => a * 10 + d) 0 (toDigitsAux fuel n) = n := by
  intro fuel
  induction fuel with
  | zero => intro n hn; interval_cases n; rfl
  | succ fuel ih =>
    intro n hn
    unfold toDigitsAux
    by_cases h10 : n < 10
    · rw [if_pos h10]
      simp
    · rw [if_neg h10, foldl_digits_append]
      have hdiv : n / 10 < 10 ^ fuel := by
        rw [Nat.div_lt_iff_lt_mul (by norm_num)]
        calc n < 10 ^ (fuel + 1) := hn
        _ = 10 ^ fuel * 10 := by ring
      rw [ih (n / 10) hdiv]
      simp only [List.length_cons, List.length_nil, pow_one, List.foldl_cons,
        List.foldl_nil]
      omega

/-- Every digit produced by `toDigitsAux` is at most 9. -/
theorem toDigitsAux_le9 : ∀ fuel n d, d ∈ toDigitsAux fuel n → d ≤ 9 := by
  intro fuel
  induction fuel with
  | zero => intro n d h; simp [toDigitsAux] at h
  | succ fuel ih =>
    intro n d h
    unfold toDigitsAux at h
    by_cases h10 : n < 10
    · rw [if_pos h10] at h
      simp at h
      omega
    · rw [if_neg h10] at h
      rcases List.mem_append.mp h with h | h
      · exact ih _ _ h
      · simp at h
        omega

/-- `toDigitsAux` never returns the empty list for positive fuel. -/
theorem toDigitsAux_ne_nil (fuel n : ℕ) : toDigitsAux (fuel + 1) n ≠ [] := by
  unfold toDigitsAux
  by_cases h10 : n < 10
  · rw [if_pos h10]; simp
  · rw [if_neg h10]; simp

/-- A value below `10^k` needs at most `k ≥ 1` digits. -/
theorem toDigitsAux_len_le : ∀ fuel n k, n < 10 ^ k → 1 ≤ k → k ≤ fuel →
    (toDigitsAux fuel n).length ≤ k := by
  intro fuel
  induction fuel with
  | zero => intro n k _ _ h; omega
  | succ fuel ih =>
    intro n k hn hk1 hkf
    unfold toDigitsAux
    by_cases h10 : n < 10
    · rw [if_pos h10]; simpa using hk1
    · rw [if_neg h10]
      have hk2 : 2 ≤ k := by
        by_contra h
        have : k = 1 := by omega
        rw [this] at hn
        simp at hn
        omega
      have hdiv : n / 10 < 10 ^ (k - 1) := by
        rw [Nat.div_lt_iff_lt_mul (by norm_num)]
        calc n < 10 ^ k := hn
        _ = 10 ^ (k - 1) * 10 := by
            rw [← pow_succ]
            congr 1
            omega
      have := ih (n / 10) (k - 1) hdiv (by omega) (by omega)
      simp only [List.length_append, List.length_cons, List.length_nil]
      omega

/-- A digit byte (`d + 48` with `d ≤ 9`) is classified as digit `d`. -/
theorem digitOf_digit (d : ℕ) (hd : d ≤ 9) : AncDec.digitOf (d + 48) = d := by
  unfold AncDec.digitOf
  omega

/-- Stage 1 of the 128-bit integer parse consumes an entire digit block
that fits the 18-digit budget. -/
theorem parse128IntStage1_all (ds : List ℕ) : ∀ (rest : List ℕ) (acc k : ℕ)
    (h : Bool), (∀ d ∈ ds, d ≤ 9) →
    (∀ hd, rest.head? = some hd → 9 < AncDec.digitOf hd) →
    k + ds.length ≤ 18 →
    AncDec128.parse128IntStage1 (digitBytes ds ++ rest) acc k h =
      (acc * 10 ^ ds.length + List.foldl (fun a d => a * 10 + d) 0 ds,
        k + ds.length, if ds = [] then h else true, rest) := by
  induction ds with
  | nil =>
    intro rest acc k h _ hrest _
    simp only [digitBytes, List.map_nil, List.nil_append, List.length_nil,
      pow_zero, mul_one, List.foldl_nil, Nat.add_zero]
    cases rest with
    | nil => simp [AncDec128.parse128IntStage1]
    | cons hd tl =>
      unfold AncDec128.parse128IntStage1
      by_cases hk : k < 18
      · rw [if_pos hk, if_pos (hrest hd rfl)]
        simp
      · rw [if_neg hk]
        simp
  | cons d tl ih =>
    intro rest acc k h hds hrest hlen
    simp only [digitBytes, List.map_cons, List.cons_append]
    unfold AncDec128.parse128IntStage1
    have hd9 : d ≤ 9 := hds d (by simp)
    rw [if_pos (by simp at hlen; omega), digitOf_digit d hd9,
      if_neg (by omega)]
    have key := ih rest (acc * 10 + d) (k + 1) true
      (fun x hx => hds x (by simp [hx])) hrest (by simp at hlen ⊢; omega)
    simp only [digitBytes] at key
    rw [key]
    simp only [List.length_cons, List.foldl_cons, Prod.mk.injEq]
    refine ⟨?_, by omega, by simp, by trivial⟩
    rw [foldl_digits_acc tl (0 * 10 + d)]
    ring

/-- Stage 1 of the 128-bit integer parse stops after exactly `18 - k`
digits of a longer digit block. -/
theorem parse128IntStage1_long (ds : List ℕ) : ∀ (rest : List ℕ) (acc k : ℕ)
    (h : Bool), (∀ d ∈ ds, d ≤ 9) → 18 < k + ds.length → k ≤ 18 →
    AncDec128.parse128IntStage1 (digitBytes ds ++ rest) acc k h =
      (acc * 10 ^ (18 - k) +
        List.foldl (fun a d => a * 10 + d) 0 (ds.take (18 - k)), 18,
        if 18 - k = 0 then h else true,
        digitBytes (ds.drop (18 - k)) ++ rest) := by
  induction ds with
  | nil => intro rest acc k h _ hlen _; simp at hlen; omega
  | cons d tl ih =>
    intro rest acc k h hds hlen hk
    simp only [digitBytes, List.map_cons, List.cons_append]
    unfold AncDec128.parse128IntStage1
    by_cases hk18 : k < 18
    · rw [if_pos hk18]
      have hd9 : d ≤ 9 := hds d (by simp)
      rw [digitOf_digit d hd9, if_neg (by omega)]
      by_cases htl : 18 < (k + 1) + tl.length
      · have key := ih rest (acc * 10 + d) (k + 1) true
          (fun x hx => hds x (by simp [hx])) htl (by omega)
        simp only [digitBytes] at key
        rw [key]
        have h1 : 18 - k = (18 - (k + 1)) + 1 := by omega
        rw [h1]
        simp only [List.take_succ_cons, List.drop_succ_cons, List.foldl_cons,
          Prod.mk.injEq]
        rw [foldl_digits_acc (tl.take (18 - (k + 1))) (0 * 10 + d)]
        have hlt : (tl.take (18 - (k + 1))).length = 18 - (k + 1) := by
          rw [List.length_take]
          simp only [List.length_cons] at hlen
          omega
        rw [hlt]
        refine ⟨by ring, ?_, ?_⟩ <;>
          simp [digitBytes, show 18 - (k + 1) + 1 ≠ 0 by omega]
      · -- exactly the last budgeted digit: tail fits
        have key := parse128IntStage1_all tl rest (acc * 10 + d) (k + 1) true
          (fun x hx => hds x (by simp [hx]))
        simp only [List.length_cons] at hlen
        omega
    · rw [if_neg hk18]
      have hk' : k = 18 := by omega
      subst hk'
      simp only [Nat.sub_self, pow_zero, mul_one, List.take_zero,
        List.foldl_nil, Nat.add_zero, List.drop_zero]
      simp [digitBytes]

/-- Stage 2 of the 128-bit integer parse consumes a digit block whose
final accumulated value stays below `2^128`. -/
theorem parse128IntStage2_all (ds : List ℕ) : ∀ (rest : List ℕ) (acc : ℕ),
    (∀ d ∈ ds, d ≤ 9) →
    (∀ hd, rest.head? = some hd → 9 < AncDec.digitOf hd) →
    acc * 10 ^ ds.length + List.foldl (fun a d => a * 10 + d) 0 ds < 2 ^ 128 →
    AncDec128.parse128IntStage2 (digitBytes ds ++ rest) acc =
      .ok (acc * 10 ^ ds.length + List.foldl (fun a d => a * 10 + d) 0 ds,
        rest) := by
  induction ds with
  | nil =>
    intro rest acc _ hrest _
    simp only [digitBytes, List.map_nil, List.nil_append, List.length_nil,
      pow_zero, mul_one, List.foldl_nil, Nat.add_zero]
    cases rest with
    | nil => rfl
    | cons hd tl =>
      unfold AncDec128.parse128IntStage2
      rw [if_pos (hrest hd rfl)]
  | cons d tl ih =>
    intro rest acc hds hrest hbound
    simp only [digitBytes, List.map_cons, List.cons_append]
    unfold AncDec128.parse128IntStage2
    have hd9 : d ≤ 9 := hds d (by simp)
    have hsplit : acc * 10 ^ (d :: tl).length +
        List.foldl (fun a d => a * 10 + d) 0 (d :: tl) =
        (acc * 10 + d) * 10 ^ tl.length +
          List.foldl (fun a d => a * 10 + d) 0 tl := by
      simp only [List.length_cons, List.foldl_cons]
      rw [foldl_digits_acc tl (0 * 10 + d)]
      ring
    have hstep : acc * 10 + d < 2 ^ 128 := by
      have h1 : (0:ℕ) < 10 ^ tl.length := pow_pos (by norm_num) _
      have h2 : (acc * 10 + d) * 1 ≤ (acc * 10 + d) * 10 ^ tl.length :=
        Nat.mul_le_mul_left _ h1
      rw [hsplit] at hbound
      omega
    rw [digitOf_digit d hd9, if_neg (by omega), if_pos hstep]
    have key := ih rest (acc * 10 + d) (fun x hx => hds x (by simp [hx]))
      hrest (by rw [← hsplit]; exact hbound)
    simp only [digitBytes] at key
    rw [key, hsplit]

/-- Stage 2 of the 128-bit fractional parse consumes a digit block while
the kept-digit budget of 38 suffices. -/
theorem parse128FracStage2_all (ds : List ℕ) : ∀ (rest : List ℕ)
    (frac fd : ℕ), (∀ d ∈ ds, d ≤ 9) →
    (∀ hd, rest.head? = some hd → 9 < AncDec.digitOf hd) →
    fd + ds.length ≤ 38 →
    AncDec128.parse128FracStage2 (digitBytes ds ++ rest) frac fd =
      (frac * 10 ^ ds.length + List.foldl (fun a d => a * 10 + d) 0 ds,
        fd + ds.length, rest) := by
  induction ds with
  | nil =>
    intro rest frac fd _ hrest _
    simp only [digitBytes, List.map_nil, List.nil_append, List.length_nil,
      pow_zero, mul_one, List.foldl_nil, Nat.add_zero]
    cases rest with
    | nil => rfl
    | cons hd tl =>
      unfold AncDec128.parse128FracStage2
      rw [if_pos (hrest hd rfl)]
  | cons d tl ih =>
    intro rest frac fd hds hrest hlen
    simp only [digitBytes, List.map_cons, List.cons_append]
    unfold AncDec128.parse128FracStage2
    have hd9 : d ≤ 9 := hds d (by simp)
    rw [digitOf_digit d hd9, if_neg (by omega),
      if_pos (by simp at hlen; omega)]
    have key := ih rest (frac * 10 + d) (fd + 1)
      (fun x hx => hds x (by simp [hx])) hrest (by simp at hlen ⊢; omega)
    simp only [digitBytes] at key
    rw [key]
    simp only [List.length_cons, List.foldl_cons, Prod.mk.injEq]
    refine ⟨?_, by omega, by trivial⟩
    rw [foldl_digits_acc tl (0 * 10 + d)]
    ring

/-- The full two-stage integer parse of a non-empty digit block whose
value fits a u128: it consumes exactly the block, reports a digit seen,
and returns the block's value. -/
theorem parse128_int_block (ds rest : List ℕ) (hds : ∀ d ∈ ds, d ≤ 9)
    (hrest : ∀ hd, rest.head? = some hd → 9 < AncDec.digitOf hd)
    (hne : ds ≠ [])
    (hval : List.foldl (fun a d => a * 10 + d) 0 ds < 2 ^ 128) :
    (AncDec128.parse128IntStage1 (digitBytes ds ++ rest) 0 0 false).2.2.1 = true ∧
    (if (AncDec128.parse128IntStage1 (digitBytes ds ++ rest) 0 0 false).2.1 = 18
     then AncDec128.parse128IntStage2
            (AncDec128.parse128IntStage1 (digitBytes ds ++ rest) 0 0 false).2.2.2
            (AncDec128.parse128IntStage1 (digitBytes ds ++ rest) 0 0 false).1
     else .ok ((AncDec128.parse128IntStage1 (digitBytes ds ++ rest) 0 0 false).1,
               (AncDec128.parse128IntStage1 (digitBytes ds ++ rest) 0 0 false).2.2.2)) =
      .ok (List.foldl (fun a d => a * 10 + d) 0 ds, rest) := by
  by_cases hlen : ds.length ≤ 18
  · rw [parse128IntStage1_all ds rest 0 0 false hds hrest (by omega)]
    simp only [if_neg hne, Nat.zero_mul, Nat.zero_add, true_and]
    by_cases h18 : ds.length = 18
    · rw [if_pos (by simpa using h18)]
      have key := parse128IntStage2_all [] rest
        (List.foldl (fun a d => a * 10 + d) 0 ds) (by simp) hrest
        (by simpa using hval)
      simpa using key
    · rw [if_neg (by simpa using h18)]
  · rw [parse128IntStage1_long ds rest 0 0 false hds (by omega) (by omega)]
    simp only [Nat.sub_zero, Nat.zero_mul, Nat.zero_add, if_pos rfl]
    constructor
    · rw [if_neg (by omega)]
    · have hsplit : List.foldl (fun a d => a * 10 + d) 0 ds =
          List.foldl (fun a d => a * 10 + d) 0 (ds.take 18) *
            10 ^ (ds.drop 18).length +
            List.foldl (fun a d => a * 10 + d) 0 (ds.drop 18) := by
        conv =>
          lhs
          rw [← List.take_append_drop 18 ds]
        rw [foldl_digits_append]
      have key := parse128IntStage2_all (ds.drop 18) rest
        (List.foldl (fun a d => a * 10 + d) 0 (ds.take 18))
        (fun x hx => hds x (List.mem_of_mem_drop hx)) hrest
        (by rw [← hsplit]; exact hval)
      rw [key, ← hsplit, if_pos trivial]

/-- The full two-stage fractional parse of a digit block of at most 38
digits ending the input: it consumes the whole block and reports its
length as the digit count. -/
theorem parse128_frac_block (ds : List ℕ) (hds : ∀ d ∈ ds, d ≤ 9)
    (hlen : ds.length ≤ 38) :
    (if (AncDec128.parse128IntStage1 (digitBytes ds) 0 0 false).2.1 = 18
     then AncDec128.parse128FracStage2
            (AncDec128.parse128IntStage1 (digitBytes ds) 0 0 false).2.2.2
            (AncDec128.parse128IntStage1 (digitBytes ds) 0 0 false).1 18
     else ((AncDec128.parse128IntStage1 (digitBytes ds) 0 0 false).1,
           (AncDec128.parse128IntStage1 (digitBytes ds) 0 0 false).2.1,
           (AncDec128.parse128IntStage1 (digitBytes ds) 0 0 false).2.2.2)) =
      (List.foldl (fun a d => a * 10 + d) 0 ds, ds.length, []) := by
  have hnil : ∀ hd : ℕ, ([] : List ℕ).head? = some hd → 9 < AncDec.digitOf hd := by
    intro hd h
    simp at h
  by_cases h18 : ds.length ≤ 18
  · have key := parse128IntStage1_all ds [] 0 0 false hds hnil (by omega)
    rw [List.append_nil] at key
    rw [key]
    simp only [Nat.zero_mul, Nat.zero_add]
    by_cases hex : ds.length = 18
    · rw [if_pos (by simpa using hex)]
      have key2 := parse128FracStage2_all [] []
        (List.foldl (fun a d => a * 10 + d) 0 ds) 18 (by simp) hnil (by simp)
      simpa [hex] using key2
    · rw [if_neg (by simpa using hex)]
  · have key := parse128IntStage1_long ds [] 0 0 false hds (by omega) (by omega)
    rw [List.append_nil] at key
    rw [key]
    simp only [Nat.sub_zero, Nat.zero_mul, Nat.zero_add, if_pos rfl]
    have key2 := parse128FracStage2_all (ds.drop 18) []
      (List.foldl (fun a d => a * 10 + d) 0 (ds.take 18)) 18
      (fun x hx => hds x (List.mem_of_mem_drop hx)) hnil
      (by rw [List.length_drop]; omega)
    rw [if_pos trivial, key2]
    have hsplit : List.foldl (fun a d => a * 10 + d) 0 ds =
        List.foldl (fun a d => a * 10 + d) 0 (ds.take 18) *
          10 ^ (ds.drop 18).length +
          List.foldl (fun a d => a * 10 + d) 0 (ds.drop 18) := by
      conv =>
        lhs
        rw [← List.take_append_drop 18 ds]
      rw [foldl_digits_append]
    rw [← hsplit]
    simp only [List.length_drop, Prod.mk.injEq]
    refine ⟨by trivial, by omega, by trivial⟩

/-- `cmp` on `AncDec128` is reflexive. -/
theorem cmp128_refl (v : AncDec128) : AncDec128.cmp v v = .eq := by
  unfold AncDec128.cmp
  by_cases hz : (v.int = 0 ∧ v.frac = 0) ∧ (v.int = 0 ∧ v.frac = 0)
  · rw [if_pos hz]
  · rw [if_neg hz]
    have habs : AncDec128.cmp_abs v v = .eq := by
      unfold AncDec128.cmp_abs cmpNat
      simp
    cases v.neg <;> simp [habs, ordRev]

/-- Evaluation of `AncDec128::parse_str` on a formatted value with a
fractional part: optional sign, integer digit block, `'.'`, fractional
digit block. -/
theorem parse_str128_eval (dsI dsF : List ℕ)
    (hIle9 : ∀ d ∈ dsI, d ≤ 9) (hIne : dsI ≠ [])
    (hIlt : List.foldl (fun a d => a * 10 + d) 0 dsI < 2 ^ 128)
    (hFle9 : ∀ d ∈ dsF, d ≤ 9) (hFlen : dsF.length ≤ 38) (neg : Bool) :
    AncDec128.parse_str
        ((if neg then [45] else []) ++ (digitBytes dsI ++ 46 :: digitBytes dsF)) =
      .ok ⟨List.foldl (fun a d => a * 10 + d) 0 dsI,
           List.foldl (fun a d => a * 10 + d) 0 dsF, dsF.length, neg⟩ := by
  have hrest46 : ∀ hd : ℕ, (46 :: digitBytes dsF).head? = some hd →
      9 < AncDec.digitOf hd := by
    intro hd h
    simp only [List.head?_cons, Option.some.injEq] at h
    subst h
    decide
  obtain ⟨hhas, hok⟩ := parse128_int_block dsI (46 :: digitBytes dsF)
    hIle9 hrest46 hIne hIlt
  have hfr := parse128_frac_block dsF hFle9 hFlen
  obtain ⟨e0, tl0, hcons⟩ := List.exists_cons_of_ne_nil hIne
  have he0 : e0 ≤ 9 := hIle9 e0 (by rw [hcons]; simp)
  have hhead : (digitBytes dsI ++ 46 :: digitBytes dsF).head? = some (e0 + 48) := by
    rw [hcons]
    simp [digitBytes]
  have hne45 : ¬(e0 + 48 = 45) := by omega
  have hsne : digitBytes dsI ++ 46 :: digitBytes dsF ≠ [] := by
    rw [hcons]
    simp [digitBytes]
  cases neg
  · simp only [Bool.false_eq_true, if_false, List.nil_append]
    unfold AncDec128.parse_str
    rw [if_neg hsne, hhead]
    simp only [Option.some.injEq, hne45, if_false]
    rw [if_neg hsne, hok]
    simp only [List.head?_cons, List.tail_cons, Option.some.injEq, reduceIte]
    simp only [hhas, hfr]
    simp
  · simp only [if_true, List.singleton_append]
    unfold AncDec128.parse_str
    rw [if_neg (by simp)]
    simp only [List.head?_cons, Option.some.injEq, List.tail_cons, reduceIte]
    rw [if_neg hsne, hok]
    simp only [List.head?_cons, List.tail_cons, Option.some.injEq, reduceIte]
    simp only [hhas, hfr]
    simp

/-- Evaluation of `AncDec128::parse_str` on a formatted value without a
fractional part. -/
theorem parse_str128_eval_noFrac (dsI : List ℕ)
    (hIle9 : ∀ d ∈ dsI, d ≤ 9) (hIne : dsI ≠ [])
    (hIlt : List.foldl (fun a d => a * 10 + d) 0 dsI < 2 ^ 128) (neg : Bool) :
    AncDec128.parse_str ((if neg then [45] else []) ++ digitBytes dsI) =
      .ok ⟨List.foldl (fun a d => a * 10 + d) 0 dsI, 0, 0, neg⟩ := by
  have hnil : ∀ hd : ℕ, ([] : List ℕ).head? = some hd → 9 < AncDec.digitOf hd := by
    intro hd h
    simp at h
  obtain ⟨hhas, hok⟩ := parse128_int_block dsI [] hIle9 hnil hIne hIlt
  rw [List.append_nil] at hhas hok
  obtain ⟨e0, tl0, hcons⟩ := List.exists_cons_of_ne_nil hIne
  have he0 : e0 ≤ 9 := hIle9 e0 (by rw [hcons]; simp)
  have hhead : (digitBytes dsI).head? = some (e0 + 48) := by
    rw [hcons]
    simp [digitBytes]
  have hne45 : ¬(e0 + 48 = 45) := by omega
  have hsne : digitBytes dsI ≠ [] := by
    rw [hcons]
    simp [digitBytes]
  cases neg
  · simp only [Bool.false_eq_true, if_false, List.nil_append]
    unfold AncDec128.parse_str
    rw [if_neg hsne, hhead]
    simp only [Option.some.injEq, hne45, if_false]
    rw [if_neg hsne, hok]
    simp only [List.head?_nil, List.tail_nil, Option.some.injEq, reduceIte]
    simp only [hhas]
    simp [AncDec128.parse128IntStage1, AncDec128.parse128FracStage2]
  · simp only [if_true, List.singleton_append]
    unfold AncDec128.parse_str
    rw [if_neg (by simp)]
    simp only [List.head?_cons, Option.some.injEq, List.tail_cons, reduceIte]
    rw [if_neg hsne, hok]
    simp only [List.head?_nil, List.tail_nil, Option.some.injEq, reduceIte]
    simp only [hhas]
    simp [AncDec128.parse128IntStage1, AncDec128.parse128FracStage2]

/-- **C3** — Round trip: for every 128-bit tier value satisfying the
representation invariant, parsing the canonical formatted text yields a
value equal to it under the defined equality (negative zero formats
without a sign but still compares equal). -/
theorem claim_C3_parse_format_roundtrip :
    ∀ v : AncDec128, v.Valid →
      ∃ w, AncDec128.parse_str (AncDec128.fmt v) = .ok w ∧
        AncDec128.cmp w v = .eq := by
  intro v hv
  obtain ⟨i, f, s, n⟩ := v
  obtain ⟨hint, hfrac, hscale⟩ := hv
  simp only at hint hfrac hscale
  have hIval : List.foldl (fun a d => a * 10 + d) 0 (natDigits i) = i :=
    toDigitsAux_val 40 i (lt_trans hint (by norm_num))
  have hIle9 : ∀ d ∈ natDigits i, d ≤ 9 := fun d h => toDigitsAux_le9 40 i d h
  have hIne : natDigits i ≠ [] := toDigitsAux_ne_nil 39 i
  have hIlt : List.foldl (fun a d => a * 10 + d) 0 (natDigits i) < 2 ^ 128 := by
    rw [hIval]; exact hint
  by_cases hs0 : s = 0
  · subst hs0
    have hf0 : f = 0 := by simpa using hfrac
    subst hf0
    have hfmt : AncDec128.fmt ⟨i, 0, 0, n⟩ =
        (if (decide (n = true ∧ ¬(i = 0 ∧ True)) : Bool) then [45] else []) ++
          digitBytes (natDigits i) := by
      unfold AncDec128.fmt
      simp only []
      rw [if_pos trivial]
      congr 1
      by_cases h : n = true ∧ ¬(i = 0 ∧ True)
      · rw [if_pos h, if_pos (by rw [decide_eq_true_eq]; exact h)]
      · rw [if_neg h, if_neg (by rw [decide_eq_true_eq]; exact h)]
    rw [hfmt, parse_str128_eval_noFrac _ hIle9 hIne hIlt _, hIval]
    refine ⟨_, rfl, ?_⟩
    by_cases hi0 : i = 0
    · subst hi0
      simp only [true_and, not_true, and_false, decide_False]
      cases n <;> decide
    · cases n
      · simp only [false_and, decide_False, Bool.false_eq_true]
        exact cmp128_refl _
      · simp only [true_and]
        rw [show (decide ¬(i = 0 ∧ True)) = true by simp [hi0]]
        exact cmp128_refl _
  · set dsF := padZeros s (natDigits f) with hdsF
    have hFle9 : ∀ d ∈ dsF, d ≤ 9 := by
      intro d hd
      rw [hdsF] at hd
      unfold padZeros at hd
      rcases List.mem_append.mp hd with h | h
      · rw [List.eq_of_mem_replicate h]; omega
      · exact toDigitsAux_le9 40 f d h
    have hFlenN : (natDigits f).length ≤ s :=
      toDigitsAux_len_le 40 f s hfrac (by omega) (by omega)
    have hFlen : dsF.length = s := by
      rw [hdsF]
      unfold padZeros
      rw [List.length_append, List.length_replicate]
      omega
    have hFval : List.foldl (fun a d => a * 10 + d) 0 dsF = f := by
      rw [hdsF]
      unfold padZeros
      rw [foldl_digits_replicate_zero]
      exact toDigitsAux_val 40 f
        (lt_of_lt_of_le hfrac (Nat.pow_le_pow_right (by norm_num) (by omega)))
    have hfmt : AncDec128.fmt ⟨i, f, s, n⟩ =
        (if (decide (n = true ∧ ¬(i = 0 ∧ f = 0)) : Bool) then [45] else []) ++
          (digitBytes (natDigits i) ++ 46 :: digitBytes dsF) := by
      unfold AncDec128.fmt
      simp only []
      rw [if_neg hs0]
      rw [show ∀ x y z : List ℕ, x ++ y ++ [46] ++ z = x ++ (y ++ 46 :: z) by
        intro x y z
        simp]
      congr 1
      by_cases h : n = true ∧ ¬(i = 0 ∧ f = 0)
      · rw [if_pos h, if_pos (by rw [decide_eq_true_eq]; exact h)]
      · rw [if_neg h, if_neg (by rw [decide_eq_true_eq]; exact h)]
    rw [hfmt, parse_str128_eval _ _ hIle9 hIne hIlt hFle9 (by omega) _,
      hIval, hFval, hFlen]
    refine ⟨_, rfl, ?_⟩
    by_cases hz : i = 0 ∧ f = 0
    · obtain ⟨hi0, hf0⟩ := hz
      subst hi0
      subst hf0
      simp only [and_self, not_true, and_false, decide_False]
      unfold AncDec128.cmp
      rw [if_pos ⟨⟨rfl, rfl⟩, ⟨rfl, rfl⟩⟩]
    · cases n
      · simp only [false_and, decide_False, Bool.false_eq_true]
        exact cmp128_refl _
      · rw [show (decide (true = true ∧ ¬(i = 0 ∧ f = 0))) = true by simp [hz]]
        exact cmp128_refl _

/-- Witness for C3: concrete application of
`claim_C3_parse_format_roundtrip`. -/
theorem claim_C3_parse_format_roundtrip_witness :
    (⟨123, 45, 4, true⟩ : AncDec128).Valid ∧
    ∃ w, AncDec128.parse_str (AncDec128.fmt ⟨123, 45, 4, true⟩) = .ok w ∧
      AncDec128.cmp w ⟨123, 45, 4, true⟩ = .eq :=
  ⟨by decide, claim_C3_parse_format_roundtrip _ (by decide)⟩
